import Mathlib

/-!
Verification development for the typescript-api-pro repository, a library of
compile-time TypeScript utility types.  The repository's artifacts are
type-level functions; we shallowly embed their compile-time semantics:

* String-literal types are embedded as `List Char`; the intrinsic
  string-literal operators Uppercase/Lowercase act per character and, on the
  ASCII range relevant here, agree with `Char.toUpper` / `Char.toLower`.
* A union type made of finitely many atoms is embedded as a `List` of atoms,
  compared up to membership (`EqSet`).
* A Map type Map<K, V> carries one key union and one value union (`MapTy`).
* An object type is a list of fields; for the constraint utilities a field
  carries an optionality flag and a value union, where the empty union is
  TypeScript's never.
* Checking an object-literal expression against a target type is embedded by
  `checkLit`: structural assignability (`assignable`) plus the excess-property
  check applied to fresh literals (every provided key must be known in some
  union/intersection member of the target, `knownKey`).
-/

namespace TsApiPro

/-- Embeds Fmt from packages/core/types/string.d.ts, applied to the single
character that the pattern infers as First: Fmt chooses Uppercase or
Lowercase according to the flag U. -/
def Fmt (u : Bool) (c : Char) : Char := if u then c.toUpper else c.toLower

/-- Embeds ToSnakeCase from packages/core/types/string.d.ts.  The conditional
type splits the string into its first character and the rest; when the first
character equals its own Uppercase form an underscore is inserted before it,
and the formatted character is prepended to the recursive result. -/
def ToSnakeCase (u : Bool) : List Char → List Char
  | [] => []
  | first :: rest =>
    if first = first.toUpper then '_' :: Fmt u first :: ToSnakeCase u rest
    else Fmt u first :: ToSnakeCase u rest

/-- Embeds Camel2SnakeCase from packages/core/types/string.d.ts: the result of
ToSnakeCase, with one leading underscore stripped when present. -/
def Camel2SnakeCase (u : Bool) (t : List Char) : List Char :=
  match ToSnakeCase u t with
  | '_' :: rest => rest
  | s => s

/-- Camel2SnakeCase with its declared default type argument U = true. -/
def Camel2SnakeCaseD (t : List Char) : List Char := Camel2SnakeCase true t

/-- Fuel-indexed variant of ToSnakeCase used to express termination: each
recursive step consumes exactly one unit of fuel together with one leading
character, and the empty string is the base case. -/
def ToSnakeCaseFuel (u : Bool) : Nat → List Char → Option (List Char)
  | _, [] => some []
  | 0, _ :: _ => none
  | fuel + 1, first :: rest =>
    (ToSnakeCaseFuel u fuel rest).map
      (fun s => if first = first.toUpper then '_' :: Fmt u first :: s else Fmt u first :: s)

/-- An ASCII lowercase letter (codepoints 97 to 122). -/
def IsLowerAscii (c : Char) : Prop := 97 ≤ c.toNat ∧ c.toNat ≤ 122

instance (c : Char) : Decidable (IsLowerAscii c) :=
  inferInstanceAs (Decidable (97 ≤ c.toNat ∧ c.toNat ≤ 122))

/-- A nonempty word made of ASCII lowercase letters. -/
def LowerWord (w : List Char) : Prop := w ≠ [] ∧ ∀ c ∈ w, IsLowerAscii c

instance (w : List Char) : Decidable (LowerWord w) :=
  inferInstanceAs (Decidable (w ≠ [] ∧ ∀ c ∈ w, IsLowerAscii c))

/-- Capitalizes the first letter of a word. -/
def capWord : List Char → List Char
  | [] => []
  | c :: cs => c.toUpper :: cs

/-- The camelCase rendering of a first word followed by further words: the
first word verbatim, every later word capitalized, all concatenated. -/
def camelRender (w : List Char) (ws : List (List Char)) : List Char :=
  w ++ (ws.map capWord).flatten

/-- Specification-side casing of one character: uppercase it when the flag is
true, lowercase it when the flag is false. -/
def caseChar (up : Bool) (c : Char) : Char := if up then c.toUpper else c.toLower

/-- Specification-side snake_case rendering: the words, each fully uppercased
or fully lowercased according to the flag, joined by single underscores. -/
def snakeRender (up : Bool) : List (List Char) → List Char
  | [] => []
  | [w] => w.map (caseChar up)
  | w :: ws => w.map (caseChar up) ++ '_' :: snakeRender up ws

/-- Helper rendering for every word after the first: each word is preceded by
an underscore. -/
def tailRender (u : Bool) : List (List Char) → List Char
  | [] => []
  | w :: ws => '_' :: (w.map (caseChar u) ++ tailRender u ws)

/-- An atom of TypeScript's PropertyKey = string | number | symbol: a string
literal, a numeric literal, or a symbol. -/
inductive PropKeyA where
  | str : String → PropKeyA
  | num : Int → PropKeyA
  | sym : Nat → PropKeyA
deriving DecidableEq

/-- An atom of a Map key union: either a PropertyKey atom or an atom of a type
that is not assignable to PropertyKey (for instance boolean or an object
type), identified by a tag. -/
inductive TKey where
  | pk : PropKeyA → TKey
  | nonProp : Nat → TKey
deriving DecidableEq

/-- The PropertyKey part of a key atom: intersecting a non-PropertyKey atom
with PropertyKey reduces to never, so it yields nothing. -/
def TKey.projPk : TKey → Option PropKeyA
  | .pk p => some p
  | .nonProp _ => none

/-- Embedding of a type of the form Map&lt;K, V&gt;: the key union and the value
union, with value atoms drawn from a parameter type. -/
structure MapTy (α : Type) where
  keyU : List TKey
  valU : List α

/-- Embedding of an object type (AnyObject) for the map utilities: a list of
fields, each a PropertyKey with a value union. -/
abbrev ObjT (α : Type) : Type := List (PropKeyA × List α)

/-- keyof T for an embedded object type: the union of its keys. -/
def keyofT {α : Type} (o : ObjT α) : List PropKeyA := o.map Prod.fst

/-- The indexed access T[keyof T]: the union of all value types of T. -/
def valuesT {α : Type} (o : ObjT α) : List α := (o.map Prod.snd).flatten

/-- Embeds MapKeyOf from packages/core/types/map.d.ts and types/map.d.ts:
matching T against Map&lt;infer K, unknown&gt; recovers the key union K. -/
def MapKeyOf {α : Type} (m : MapTy α) : List TKey := m.keyU

/-- Embeds MapValueOf from packages/core/types/map.d.ts and types/map.d.ts:
matching T against Map&lt;unknown, infer V&gt; recovers the value union V. -/
def MapValueOf {α : Type} (m : MapTy α) : List α := m.valU

/-- Embeds MapToObject from packages/core/types/map.d.ts and types/map.d.ts:
a mapped type over MapKeyOf&lt;T&gt; ∩ PropertyKey (key atoms not assignable to
PropertyKey intersect to never and disappear), every key being assigned the
whole inferred value type V. -/
def MapToObject {α : Type} (m : MapTy α) : ObjT α :=
  m.keyU.filterMap (fun k => k.projPk.map (fun p => (p, m.valU)))

/-- Embeds ObjectToMap from packages/core/types/map.d.ts and types/map.d.ts:
Map&lt;keyof T, T[keyof T]&gt;. -/
def ObjectToMap {α : Type} (o : ObjT α) : MapTy α :=
  ⟨(keyofT o).map TKey.pk, valuesT o⟩

/-- Specification-side rendering of the mapped type with keys keyof T and, at
every key, the union T[keyof T] of all of T's value types. -/
def roundTripSpec {α : Type} (o : ObjT α) : ObjT α :=
  o.map (fun f => (f.1, valuesT o))

/-- Two embedded unions denote the same type when they have the same atoms. -/
def EqSet {β : Type} (xs ys : List β) : Prop := ∀ b, b ∈ xs ↔ b ∈ ys

/-- The value union an embedded object type associates with a key. -/
def lookupAll {α : Type} (o : ObjT α) (k : PropKeyA) : List α :=
  ((o.filter (fun f => decide (f.1 = k))).map Prod.snd).flatten

/-- Mutual assignability of two embedded object types: the same key set, and
at every key the same value union. -/
def ObjEquiv {α : Type} (a b : ObjT α) : Prop :=
  EqSet (keyofT a) (keyofT b) ∧ ∀ k : PropKeyA, EqSet (lookupAll a k) (lookupAll b k)

/-- Embeds ArrayItem (array utility documented in the array-types page):
matching a tuple type against readonly (infer U)[] infers U as the union of
the tuple's element types.  A tuple is a list of element unions. -/
def ArrayItem {α : Type} (t : List (List α)) : List α := t.flatten

/-- A field of an embedded object type for the constraint utilities of
types/object.d.ts: its key, its optionality flag, and its value union, the
empty union being never. -/
abbrev FieldsT (α : Type) : Type := List (PropKeyA × Bool × List α)

/-- The fragment of TypeScript types the constraint utilities inhabit: object
types, intersections, unions and never. -/
inductive Ty (α : Type) where
  | obj : FieldsT α → Ty α
  | and : Ty α → Ty α → Ty α
  | or : Ty α → Ty α → Ty α
  | nev : Ty α

/-- An object-literal value: the provided properties with their atom values. -/
abbrev ValRec (α : Type) : Type := List (PropKeyA × α)

/-- The value a literal provides at a key, if any. -/
def lookupVal {α : Type} (k : PropKeyA) : ValRec α → Option α
  | [] => none
  | p :: rest => if p.1 = k then some p.2 else lookupVal k rest

/-- One field check: a provided value must inhabit the field's value union (a
value can never inhabit never, the empty union); a missing property is
acceptable exactly when the field is optional. -/
def fieldOk {α : Type} [DecidableEq α] (v : ValRec α) (f : PropKeyA × Bool × List α) : Bool :=
  match lookupVal f.1 v with
  | some a => decide (a ∈ f.2.2)
  | none => f.2.1

/-- Structural assignability of a flat object literal to a type of the
fragment: all fields for an object type, both members for an intersection,
some member for a union, nothing for never. -/
def assignable {α : Type} [DecidableEq α] (v : ValRec α) : Ty α → Bool
  | .obj fs => fs.all (fieldOk v)
  | .and a b => assignable v a && assignable v b
  | .or a b => assignable v a || assignable v b
  | .nev => false

/-- Whether a key is a known property of the target: declared by the object
type itself, or by some member of a union or intersection.  This is the rule
the compiler's excess-property check applies to fresh object literals. -/
def knownKey {α : Type} (k : PropKeyA) : Ty α → Bool
  | .obj fs => fs.any (fun f => decide (f.1 = k))
  | .and a b => knownKey k a || knownKey k b
  | .or a b => knownKey k a || knownKey k b
  | .nev => false

/-- Type-checking a fresh object-literal expression against a target type:
structural assignability plus the excess-property check on every provided
key. -/
def checkLit {α : Type} [DecidableEq α] (v : ValRec α) (t : Ty α) : Bool :=
  assignable v t && v.all (fun p => knownKey p.1 t)

/-- Embeds Omit&lt;T, Ks&gt;: drop the fields whose key lies in Ks. -/
def OmitT {α : Type} (fs : FieldsT α) (ks : List PropKeyA) : FieldsT α :=
  fs.filter (fun f => decide (f.1 ∉ ks))

/-- Embeds Pick&lt;T, Ks&gt;: keep exactly the fields whose key lies in Ks. -/
def PickT {α : Type} (fs : FieldsT α) (ks : List PropKeyA) : FieldsT α :=
  fs.filter (fun f => decide (f.1 ∈ ks))

/-- Embeds Partial&lt;T&gt;: every field becomes optional. -/
def PartialT {α : Type} (fs : FieldsT α) : FieldsT α :=
  fs.map (fun f => (f.1, true, f.2.2))

/-- Embeds Required&lt;T&gt;: every field becomes required. -/
def RequiredT {α : Type} (fs : FieldsT α) : FieldsT α :=
  fs.map (fun f => (f.1, false, f.2.2))

/-- Embeds the mapped record with every key in Ks required of type never. -/
def neverRecord {α : Type} (ks : List PropKeyA) : FieldsT α :=
  ks.map (fun k => (k, false, ([] : List α)))

/-- The keys of an embedded field list. -/
def keysOfF {α : Type} (fs : FieldsT α) : List PropKeyA := fs.map (fun f => f.1)

/-- The indexed access T[k]: the value union of the field named k. -/
def tyAtF {α : Type} (fs : FieldsT α) (k : PropKeyA) : List α :=
  ((fs.find? (fun f => decide (f.1 = k))).map (fun f => f.2.2)).getD []

/-- The optionality flag of the field named k. -/
def optAtF {α : Type} (fs : FieldsT α) (k : PropKeyA) : Bool :=
  ((fs.find? (fun f => decide (f.1 = k))).map (fun f => f.2.1)).getD false

/-- Embeds Mutually from types/object.d.ts exactly as the source defines it:
Omit&lt;T, K&gt; | Omit&lt;T, O&gt;. -/
def Mutually {α : Type} (fs : FieldsT α) (K O : PropKeyA) : Ty α :=
  .or (.obj (OmitT fs [K])) (.obj (OmitT fs [O]))

/-- Embeds RequiredDependency from types/object.d.ts:
Omit&lt;T, D&gt; ∩ (Partial of the K,D never-record ∪ Required&lt;Pick&lt;T, K | D&gt;&gt;). -/
def RequiredDependency {α : Type} (fs : FieldsT α) (K D : PropKeyA) : Ty α :=
  .and (.obj (OmitT fs [D]))
       (.or (.obj (PartialT (neverRecord [K, D])))
            (.obj (RequiredT (PickT fs [K, D]))))

/-- One constituent of MutuallyWithObject: the field K required with its own
type, intersected with every other key optional of type never. -/
def mwoBranch {α : Type} (fs : FieldsT α) (k : PropKeyA) : Ty α :=
  .and (.obj [(k, false, tyAtF fs k)])
       (.obj (((keysOfF fs).filter (fun j => decide (j ≠ k))).map
          (fun j => (j, true, ([] : List α)))))

/-- Embeds MutuallyWithObject from types/object.d.ts: the union, indexed by
keyof T, of the per-key constituents; indexing a mapped type by keyof T is
the union of its members, and the union over no keys is never. -/
def MutuallyWithObject {α : Type} (fs : FieldsT α) : Ty α :=
  (keysOfF fs).foldr (fun k acc => .or (mwoBranch fs k) acc) .nev

/-- The PaymentOptions example from the repository's object-types
documentation: amount required, creditCard and paypal optional. -/
def paymentFields : FieldsT Nat :=
  [(PropKeyA.str "amount", false, [100]),
   (PropKeyA.str "creditCard", true, [1]),
   (PropKeyA.str "paypal", true, [2])]

/-- The documentation's rejected payment literal providing amount, creditCard
and paypal all at once. -/
def paymentBoth : ValRec Nat :=
  [(PropKeyA.str "amount", 100), (PropKeyA.str "creditCard", 1), (PropKeyA.str "paypal", 2)]

/-- The AuthMethods example from the repository's object-types documentation:
three required properties. -/
def authFields : FieldsT Nat :=
  [(PropKeyA.str "token", false, [10]),
   (PropKeyA.str "username", false, [11]),
   (PropKeyA.str "apiKey", false, [12])]

/-- The FormField example from the repository's object-types documentation:
three optional properties. -/
def formFields : FieldsT Nat :=
  [(PropKeyA.str "required", true, [0]),
   (PropKeyA.str "minLength", true, [1]),
   (PropKeyA.str "maxLength", true, [2])]

/-- A two-field object type used as a concrete round-trip input. -/
def rtObj : ObjT Nat := [(PropKeyA.str "a", [0]), (PropKeyA.str "b", [1])]

/-- A map whose key union mixes a PropertyKey atom with a non-PropertyKey
atom. -/
def mixedMap : MapTy Nat := ⟨[TKey.pk (PropKeyA.str "a"), TKey.nonProp 0], [1, 2]⟩

end TsApiPro

namespace TsApiPro

/-! Helper lemmas about characters in the ASCII range, derived from the
definitions of Char.toUpper and Char.toLower. -/

theorem toNat_charOfNat {n : Nat} (h : n < 55296) : (Char.ofNat n).toNat = n := by
  have hv : n.isValidChar := Or.inl h
  rw [Char.ofNat, dif_pos hv]
  rfl

theorem char_ne_of_toNat_ne {a b : Char} (h : a.toNat ≠ b.toNat) : a ≠ b :=
  fun hab => h (hab ▸ rfl)

theorem toUpper_toNat {c : Char} (h : IsLowerAscii c) : c.toUpper.toNat = c.toNat - 32 := by
  obtain ⟨h1, h2⟩ := h
  unfold Char.toUpper
  rw [if_pos ⟨h1, h2⟩]
  exact toNat_charOfNat (by omega)

theorem toUpper_ne {c : Char} (h : IsLowerAscii c) : c ≠ c.toUpper := by
  apply char_ne_of_toNat_ne
  rw [toUpper_toNat h]
  obtain ⟨h1, h2⟩ := h
  omega

theorem toUpper_eq_self_of_not {c : Char} (h : ¬(97 ≤ c.toNat ∧ c.toNat ≤ 122)) :
    c.toUpper = c := by
  unfold Char.toUpper
  rw [if_neg h]

theorem toUpper_idem {c : Char} (h : IsLowerAscii c) : c.toUpper.toUpper = c.toUpper := by
  apply toUpper_eq_self_of_not
  rw [toUpper_toNat h]
  obtain ⟨h1, h2⟩ := h
  omega

theorem toLower_eq_self {c : Char} (h : IsLowerAscii c) : c.toLower = c := by
  obtain ⟨h1, h2⟩ := h
  unfold Char.toLower
  rw [if_neg (by omega)]

theorem toLower_toUpper {c : Char} (h : IsLowerAscii c) : c.toUpper.toLower = c := by
  have h1 := h.1
  have h2 := h.2
  unfold Char.toLower
  rw [if_pos (by rw [toUpper_toNat h]; omega)]
  rw [toUpper_toNat h]
  have h3 : c.toNat - 32 + 32 = c.toNat := by omega
  rw [h3]
  exact Char.ofNat_toNat c

theorem Fmt_capHead {c : Char} (h : IsLowerAscii c) (u : Bool) : Fmt u c.toUpper = Fmt u c := by
  cases u with
  | true => simp [Fmt, toUpper_idem h]
  | false => simp [Fmt, toLower_toUpper h, toLower_eq_self h]

/-! Helper lemmas about ToSnakeCase on camelCase inputs. -/

theorem toSnakeCase_lower_append {u : Bool} {cs rest : List Char}
    (h : ∀ c ∈ cs, IsLowerAscii c) :
    ToSnakeCase u (cs ++ rest) = cs.map (Fmt u) ++ ToSnakeCase u rest := by
  induction cs with
  | nil => simp
  | cons c cs ih =>
    have hc : IsLowerAscii c := h c (by simp)
    have hcs : ∀ x ∈ cs, IsLowerAscii x := fun x hx => h x (by simp [hx])
    simp only [List.cons_append, ToSnakeCase, if_neg (toUpper_ne hc), List.map_cons]
    exact congrArg (List.cons (Fmt u c)) (ih hcs)

theorem toSnakeCase_capWords {u : Bool} {ws : List (List Char)}
    (hws : ∀ w ∈ ws, LowerWord w) :
    ToSnakeCase u ((ws.map capWord).flatten) = tailRender u ws := by
  induction ws with
  | nil => simp [tailRender, ToSnakeCase]
  | cons w ws ih =>
    obtain ⟨hne, hlow⟩ := hws w (by simp)
    obtain ⟨c, cs, rfl⟩ : ∃ c cs, w = c :: cs := by
      cases w with
      | nil => exact absurd rfl hne
      | cons c cs => exact ⟨c, cs, rfl⟩
    have hc : IsLowerAscii c := hlow c (by simp)
    have hcs : ∀ x ∈ cs, IsLowerAscii x := fun x hx => hlow x (by simp [hx])
    have hrec : ∀ v ∈ ws, LowerWord v := fun v hv => hws v (by simp [hv])
    have hjoin : ((((c :: cs) :: ws).map capWord).flatten)
        = c.toUpper :: (cs ++ (ws.map capWord).flatten) := by
      simp [capWord]
    rw [hjoin]
    have hcond : c.toUpper = c.toUpper.toUpper := (toUpper_idem hc).symm
    show (if c.toUpper = c.toUpper.toUpper then
        '_' :: Fmt u c.toUpper :: ToSnakeCase u (cs ++ (ws.map capWord).flatten)
      else Fmt u c.toUpper :: ToSnakeCase u (cs ++ (ws.map capWord).flatten)) = _
    rw [if_pos hcond, toSnakeCase_lower_append hcs, ih hrec, Fmt_capHead hc]
    rfl

theorem snakeRender_cons (u : Bool) (w : List Char) (ws : List (List Char)) :
    snakeRender u (w :: ws) = w.map (caseChar u) ++ tailRender u ws := by
  induction ws generalizing w with
  | nil => simp [snakeRender, tailRender]
  | cons v vs ih =>
    show w.map (caseChar u) ++ '_' :: snakeRender u (v :: vs) = _
    rw [ih v]
    simp [tailRender]

theorem Fmt_ne_underscore {c : Char} (h : IsLowerAscii c) (u : Bool) : Fmt u c ≠ '_' := by
  apply char_ne_of_toNat_ne
  cases u with
  | true =>
    show c.toUpper.toNat ≠ _
    rw [toUpper_toNat h]
    obtain ⟨h1, h2⟩ := h
    have h3 : ('_').toNat = 95 := rfl
    omega
  | false =>
    show c.toLower.toNat ≠ _
    rw [toLower_eq_self h]
    obtain ⟨h1, h2⟩ := h
    have h3 : ('_').toNat = 95 := rfl
    omega

theorem camel2SnakeCase_of_head_ne (u : Bool) (t : List Char) (c : Char) (cs : List Char)
    (h1 : ToSnakeCase u t = c :: cs) (h2 : c ≠ '_') :
    Camel2SnakeCase u t = c :: cs := by
  unfold Camel2SnakeCase
  rw [h1]
  split
  · rename_i heq
    exact absurd (List.head_eq_of_cons_eq heq.symm).symm h2
  · rfl

theorem camel2snake_main (w : List Char) (ws : List (List Char)) (u : Bool)
    (hw : LowerWord w) (hws : ∀ v ∈ ws, LowerWord v) :
    Camel2SnakeCase u (camelRender w ws) = snakeRender u (w :: ws) := by
  obtain ⟨hne, hlow⟩ := hw
  obtain ⟨c, cs, rfl⟩ : ∃ c cs, w = c :: cs := by
    cases w with
    | nil => exact absurd rfl hne
    | cons c cs => exact ⟨c, cs, rfl⟩
  have hc : IsLowerAscii c := hlow c (by simp)
  have hcs : ∀ x ∈ cs, IsLowerAscii x := fun x hx => hlow x (by simp [hx])
  have hts : ToSnakeCase u (camelRender (c :: cs) ws)
      = Fmt u c :: (cs.map (Fmt u) ++ tailRender u ws) := by
    unfold camelRender
    rw [List.cons_append]
    show (if c = c.toUpper then
        '_' :: Fmt u c :: ToSnakeCase u (cs ++ (ws.map capWord).flatten)
      else Fmt u c :: ToSnakeCase u (cs ++ (ws.map capWord).flatten)) = _
    rw [if_neg (toUpper_ne hc), toSnakeCase_lower_append hcs, toSnakeCase_capWords hws]
  rw [camel2SnakeCase_of_head_ne u _ _ _ hts (Fmt_ne_underscore hc u)]
  rw [snakeRender_cons]
  rfl

theorem toSnakeCase_append (u : Bool) (a b : List Char) :
    ToSnakeCase u (a ++ b) = ToSnakeCase u a ++ ToSnakeCase u b := by
  induction a with
  | nil => rfl
  | cons c cs ih =>
    rw [List.cons_append, ToSnakeCase, ToSnakeCase]
    split
    · rw [ih]; rfl
    · rw [ih]; rfl

/-! Helper lemmas for the map round trip and the key filtering. -/

theorem filterMap_pk_keys {α : Type} (l : List (PropKeyA × List α)) (V : List α) :
    ((l.map Prod.fst).map TKey.pk).filterMap (fun k => k.projPk.map (fun p => (p, V)))
      = l.map (fun f => (f.1, V)) := by
  induction l with
  | nil => rfl
  | cons f fs ih =>
    show (f.1, V) :: ((fs.map Prod.fst).map TKey.pk).filterMap
        (fun k => k.projPk.map (fun p => (p, V)))
      = (f.1, V) :: fs.map (fun g => (g.1, V))
    exact congrArg (List.cons (f.1, V)) ih

/-! Helper lemmas for the assignability fragment. -/

theorem all_eq_false_of_mem {β : Type} {l : List β} {p : β → Bool} {x : β}
    (hx : x ∈ l) (hpx : p x = false) : l.all p = false := by
  cases h : l.all p with
  | false => rfl
  | true => exact absurd (List.all_eq_true.mp h x hx) (by simp [hpx])

theorem all_filter_of_all {β : Type} {l : List β} {p q : β → Bool}
    (h : l.all p = true) : (l.filter q).all p = true := by
  rw [List.all_eq_true] at h ⊢
  exact fun x hx => h x (List.mem_filter.mp hx).1

theorem assignable_foldr_or {α : Type} [DecidableEq α] (v : ValRec α)
    (f : PropKeyA → Ty α) (ks : List PropKeyA) :
    assignable v (ks.foldr (fun k acc => .or (f k) acc) .nev)
      = ks.any (fun k => assignable v (f k)) := by
  induction ks with
  | nil => rfl
  | cons k ks ih =>
    show (assignable v (f k) || assignable v _) = _
    rw [ih]
    rfl

theorem knownKey_foldr_or {α : Type} (j : PropKeyA)
    (f : PropKeyA → Ty α) (ks : List PropKeyA) :
    knownKey j (ks.foldr (fun k acc => .or (f k) acc) .nev)
      = ks.any (fun k => knownKey j (f k)) := by
  induction ks with
  | nil => rfl
  | cons k ks ih =>
    show (knownKey j (f k) || knownKey j _) = _
    rw [ih]
    rfl

theorem lookupVal_single {α : Type} (k j : PropKeyA) (a : α) :
    lookupVal j [(k, a)] = if k = j then some a else none := rfl

theorem fieldOk_required_of_some {α : Type} [DecidableEq α] {v : ValRec α}
    {f : PropKeyA × Bool × List α} {a : α}
    (hl : lookupVal f.1 v = some a) (hok : fieldOk v f = true) :
    fieldOk v (f.1, false, f.2.2) = true := by
  unfold fieldOk at hok ⊢
  rw [hl] at hok ⊢
  exact hok

end TsApiPro

namespace TsApiPro

/-- Claim C1: for every multi-word camelCase string, rendered as a lowercase
first word followed by at least one capitalized lowercase word,
Camel2SnakeCase yields the snake_case form of the words with every word
uppercased when the flag U is true and every word lowercased when U is false;
the declared default of U is true (third conjunct). -/
theorem camel2SnakeCase_multiword (w : List Char) (ws : List (List Char))
    (hw : LowerWord w) (hws : ∀ v ∈ ws, LowerWord v) (_hne : ws ≠ []) :
    Camel2SnakeCase true (camelRender w ws) = snakeRender true (w :: ws) ∧
    Camel2SnakeCase false (camelRender w ws) = snakeRender false (w :: ws) ∧
    Camel2SnakeCaseD (camelRender w ws) = snakeRender true (w :: ws) :=
  ⟨camel2snake_main w ws true hw hws, camel2snake_main w ws false hw hws,
   camel2snake_main w ws true hw hws⟩

/-- Witness for C1 at the documentation example myVariableName, whose words
are my, variable, name. -/
theorem camel2SnakeCase_multiword_witness :
    LowerWord "my".data ∧ (∀ v ∈ [ "variable".data, "name".data ], LowerWord v) ∧
    ([ "variable".data, "name".data ] ≠ ([] : List (List Char))) ∧
    Camel2SnakeCase true (camelRender "my".data [ "variable".data, "name".data ])
      = "MY_VARIABLE_NAME".data ∧
    Camel2SnakeCase false (camelRender "my".data [ "variable".data, "name".data ])
      = "my_variable_name".data := by
  refine ⟨by decide, by decide, by decide, ?_, ?_⟩
  · exact (camel2SnakeCase_multiword "my".data [ "variable".data, "name".data ]
      (by decide) (by decide) (by decide)).1.trans (by decide)
  · exact (camel2SnakeCase_multiword "my".data [ "variable".data, "name".data ]
      (by decide) (by decide) (by decide)).2.1.trans (by decide)

/-- Claim C2: round-tripping an object type through ObjectToMap and then
MapToObject yields the object type with keys exactly keyof T and, at every
key, the union T[keyof T] of all of T's value types; the two types are in
fact equal in the embedding, hence equivalent. -/
theorem mapToObject_objectToMap_roundTrip {α : Type} (o : ObjT α) :
    MapToObject (ObjectToMap o) = roundTripSpec o ∧
    ObjEquiv (MapToObject (ObjectToMap o)) (roundTripSpec o) := by
  have heq : MapToObject (ObjectToMap o) = roundTripSpec o := by
    unfold MapToObject ObjectToMap roundTripSpec keyofT
    exact filterMap_pk_keys o (valuesT o)
  refine ⟨heq, ?_⟩
  rw [heq]
  exact ⟨fun b => Iff.rfl, fun k b => Iff.rfl⟩

/-- Witness for C2 at a concrete two-field object type, with the round trip
evaluated: both keys receive the union of both value types. -/
theorem mapToObject_objectToMap_roundTrip_witness :
    MapToObject (ObjectToMap rtObj)
      = [(PropKeyA.str "a", [0, 1]), (PropKeyA.str "b", [0, 1])] ∧
    ObjEquiv (MapToObject (ObjectToMap rtObj)) (roundTripSpec rtObj) :=
  ⟨by decide, (mapToObject_objectToMap_roundTrip rtObj).2⟩

/-- Claim C3 concerns Mutually from types/object.d.ts, defined in the source
as the union of Omit of each key.  The claim states that a fresh literal
providing both keys fails to type-check.  Evaluating the embedding on the
PaymentOptions example of the repository's own documentation shows the
opposite: the literal providing amount, creditCard and paypal passes both
structural assignability (it satisfies the Omit creditCard constituent) and
the excess-property check (each provided key is known in some constituent),
so the union-of-Omit encoding does not enforce exclusion.  The documentation
defines Mutually with optional-never fields instead and marks this very
literal as an error, so the shipped code contradicts its documentation. -/
theorem mutually_acceptsBothKeys :
    lookupVal (PropKeyA.str "creditCard") paymentBoth = some 1 ∧
    lookupVal (PropKeyA.str "paypal") paymentBoth = some 2 ∧
    checkLit paymentBoth
      (Mutually paymentFields (PropKeyA.str "creditCard") (PropKeyA.str "paypal")) = true := by
  refine ⟨by decide, by decide, by decide⟩

/-- Claim C4: for MutuallyWithObject, a literal providing two distinct
properties of T is rejected (in every union constituent one of the two
provided keys is an optional-never field), while a literal providing exactly
one property of T with a value of its type is accepted. -/
theorem mutuallyWithObject_exclusive {α : Type} [DecidableEq α] (fs : FieldsT α)
    (k1 k2 : PropKeyA) (h12 : k1 ≠ k2) (h1 : k1 ∈ keysOfF fs) (h2 : k2 ∈ keysOfF fs) :
    (∀ (v : ValRec α) (a1 a2 : α), lookupVal k1 v = some a1 → lookupVal k2 v = some a2 →
      checkLit v (MutuallyWithObject fs) = false) ∧
    (∀ (k : PropKeyA) (a : α), k ∈ keysOfF fs → a ∈ tyAtF fs k →
      checkLit [(k, a)] (MutuallyWithObject fs) = true) := by
  constructor
  · intro v a1 a2 hl1 hl2
    have hassign : assignable v (MutuallyWithObject fs) = false := by
      unfold MutuallyWithObject
      rw [assignable_foldr_or]
      rw [List.any_eq_false]
      intro k hk
      obtain ⟨j, aj, hjk, hjkeys, hjl⟩ :
          ∃ j aj, j ≠ k ∧ j ∈ keysOfF fs ∧ lookupVal j v = some aj := by
        by_cases hek : k1 = k
        · exact ⟨k2, a2, fun hh => h12 (hek.trans hh.symm), h2, hl2⟩
        · exact ⟨k1, a1, hek, h1, hl1⟩
      show ¬(assignable v (mwoBranch fs k) = true)
      unfold mwoBranch
      show ¬((assignable v _ && assignable v _) = true)
      have hob2 : assignable v (Ty.obj (((keysOfF fs).filter (fun j => decide (j ≠ k))).map
          (fun j => (j, true, ([] : List α))))) = false := by
        show (((keysOfF fs).filter (fun j => decide (j ≠ k))).map
          (fun j => (j, true, ([] : List α)))).all (fieldOk v) = false
        apply all_eq_false_of_mem (x := (j, true, ([] : List α)))
        · exact List.mem_map.mpr ⟨j, List.mem_filter.mpr ⟨hjkeys, by simp [hjk]⟩, rfl⟩
        · unfold fieldOk
          show (match lookupVal j v with
            | some a => decide (a ∈ ([] : List α))
            | none => true) = false
          rw [hjl]
          simp
      rw [hob2]
      simp
    unfold checkLit
    rw [hassign]
    rfl
  · intro k a hk ha
    have hbranch : assignable [(k, a)] (mwoBranch fs k) = true := by
      unfold mwoBranch
      show (assignable [(k, a)] _ && assignable [(k, a)] _) = true
      have ho1 : assignable [(k, a)] (Ty.obj [(k, false, tyAtF fs k)]) = true := by
        show ([(k, false, tyAtF fs k)]).all (fieldOk [(k, a)]) = true
        rw [List.all_eq_true]
        intro x hx
        rw [List.mem_singleton] at hx
        rw [hx]
        unfold fieldOk
        show (match lookupVal k [(k, a)] with
          | some b => decide (b ∈ tyAtF fs k)
          | none => false) = true
        rw [lookupVal_single, if_pos rfl]
        exact decide_eq_true ha
      have ho2 : assignable [(k, a)] (Ty.obj (((keysOfF fs).filter (fun j => decide (j ≠ k))).map
          (fun j => (j, true, ([] : List α))))) = true := by
        show (((keysOfF fs).filter (fun j => decide (j ≠ k))).map
          (fun j => (j, true, ([] : List α)))).all (fieldOk [(k, a)]) = true
        rw [List.all_eq_true]
        intro x hx
        obtain ⟨j, hjmem, rfl⟩ := List.mem_map.mp hx
        have hjk : j ≠ k := by
          have hsel := (List.mem_filter.mp hjmem).2
          simpa using hsel
        unfold fieldOk
        show (match lookupVal j [(k, a)] with
          | some b => decide (b ∈ ([] : List α))
          | none => true) = true
        rw [lookupVal_single, if_neg (fun hh => hjk hh.symm)]
      rw [ho1, ho2]
      rfl
    have hassign : assignable [(k, a)] (MutuallyWithObject fs) = true := by
      unfold MutuallyWithObject
      rw [assignable_foldr_or]
      exact List.any_eq_true.mpr ⟨k, hk, hbranch⟩
    have hknown : knownKey k (MutuallyWithObject fs) = true := by
      unfold MutuallyWithObject
      rw [knownKey_foldr_or]
      apply List.any_eq_true.mpr
      refine ⟨k, hk, ?_⟩
      unfold mwoBranch
      show (knownKey k _ || knownKey k _) = true
      have hx : knownKey k (Ty.obj [(k, false, tyAtF fs k)]) = true := by
        show ([(k, false, tyAtF fs k)]).any (fun f => decide (f.1 = k)) = true
        simp
      rw [hx]
      rfl
    unfold checkLit
    rw [hassign]
    show (true && ([(k, a)].all fun p => knownKey p.1 (MutuallyWithObject fs))) = true
    simp [hknown]

/-- Witness for C4 at the documentation's AuthMethods example: providing
token and username together is rejected, providing token alone is
accepted. -/
theorem mutuallyWithObject_exclusive_witness :
    (PropKeyA.str "token" ≠ PropKeyA.str "username") ∧
    (PropKeyA.str "token" ∈ keysOfF authFields) ∧
    (PropKeyA.str "username" ∈ keysOfF authFields) ∧
    checkLit [(PropKeyA.str "token", 10), (PropKeyA.str "username", 11)]
      (MutuallyWithObject authFields) = false ∧
    checkLit [(PropKeyA.str "token", 10)] (MutuallyWithObject authFields) = true := by
  refine ⟨by decide, by decide, by decide, ?_, ?_⟩
  · exact (mutuallyWithObject_exclusive authFields
      (PropKeyA.str "token") (PropKeyA.str "username")
      (by decide) (by decide) (by decide)).1 _ 10 11 (by decide) (by decide)
  · exact (mutuallyWithObject_exclusive authFields
      (PropKeyA.str "token") (PropKeyA.str "username")
      (by decide) (by decide) (by decide)).2 (PropKeyA.str "token") 10 (by decide) (by decide)

end TsApiPro

namespace TsApiPro

/-- Claim C5: for RequiredDependency over a type whose keys K and D are
optional, a literal providing K while omitting D is rejected (it inhabits
neither the all-optional-never branch nor the Required-Pick branch); a
literal providing both K and D, or neither, that otherwise conforms to T and
provides only keys of T, is accepted. -/
theorem requiredDependency_spec {α : Type} [DecidableEq α] (fs : FieldsT α)
    (K D : PropKeyA) (_hKD : K ≠ D)
    (_hK : K ∈ keysOfF fs) (hD : D ∈ keysOfF fs)
    (_hKopt : optAtF fs K = true) (_hDopt : optAtF fs D = true) :
    (∀ (v : ValRec α) (a : α), lookupVal K v = some a → lookupVal D v = none →
      checkLit v (RequiredDependency fs K D) = false) ∧
    (∀ (v : ValRec α) (a b : α), lookupVal K v = some a → lookupVal D v = some b →
      assignable v (.obj fs) = true → (∀ p ∈ v, p.1 ∈ keysOfF fs) →
      checkLit v (RequiredDependency fs K D) = true) ∧
    (∀ (v : ValRec α), lookupVal K v = none → lookupVal D v = none →
      assignable v (.obj fs) = true → (∀ p ∈ v, p.1 ∈ keysOfF fs) →
      checkLit v (RequiredDependency fs K D) = true) := by
  have hepc : ∀ (v : ValRec α), (∀ p ∈ v, p.1 ∈ keysOfF fs) →
      (v.all fun p => knownKey p.1 (RequiredDependency fs K D)) = true := by
    intro v hv
    rw [List.all_eq_true]
    intro p hp
    have hpk : p.1 ∈ keysOfF fs := hv p hp
    obtain ⟨f, hf, hf1⟩ := List.mem_map.mp hpk
    unfold RequiredDependency
    show (knownKey p.1 (Ty.obj (OmitT fs [D])) ||
      (knownKey p.1 (Ty.obj (PartialT (neverRecord [K, D]))) ||
       knownKey p.1 (Ty.obj (RequiredT (PickT fs [K, D]))))) = true
    by_cases hpD : p.1 = D
    · have hkn : knownKey p.1 (Ty.obj (PartialT (neverRecord [K, D] : FieldsT α))) = true := by
        show ((neverRecord [K, D] : FieldsT α).map (fun g => (g.1, true, g.2.2))).any
          (fun g => decide (g.1 = p.1)) = true
        apply List.any_eq_true.mpr
        refine ⟨(D, true, ([] : List α)), ?_, by simp [hpD]⟩
        show (D, true, ([] : List α)) ∈ (neverRecord [K, D] : FieldsT α).map
          (fun g => (g.1, true, g.2.2))
        apply List.mem_map.mpr
        exact ⟨(D, false, ([] : List α)), by simp [neverRecord], rfl⟩
      rw [hkn]
      simp
    · have hkn : knownKey p.1 (Ty.obj (OmitT fs [D])) = true := by
        show (OmitT fs [D]).any (fun g => decide (g.1 = p.1)) = true
        apply List.any_eq_true.mpr
        refine ⟨f, ?_, by simp [hf1]⟩
        apply List.mem_filter.mpr
        refine ⟨hf, ?_⟩
        simp [hf1, hpD]
      rw [hkn]
      simp
  refine ⟨?_, ?_, ?_⟩
  · intro v a hlK hlD
    have hassign : assignable v (RequiredDependency fs K D) = false := by
      unfold RequiredDependency
      show (assignable v (Ty.obj (OmitT fs [D])) &&
        (assignable v (Ty.obj (PartialT (neverRecord [K, D]))) ||
         assignable v (Ty.obj (RequiredT (PickT fs [K, D]))))) = false
      have hP1 : assignable v (Ty.obj (PartialT (neverRecord [K, D]))) = false := by
        show ((neverRecord [K, D] : FieldsT α).map (fun g => (g.1, true, g.2.2))).all
          (fieldOk v) = false
        apply all_eq_false_of_mem (x := (K, true, ([] : List α)))
        · apply List.mem_map.mpr
          exact ⟨(K, false, ([] : List α)), by simp [neverRecord], rfl⟩
        · unfold fieldOk
          show (match lookupVal K v with
            | some b => decide (b ∈ ([] : List α))
            | none => true) = false
          rw [hlK]
          simp
      have hP2 : assignable v (Ty.obj (RequiredT (PickT fs [K, D]))) = false := by
        show ((PickT fs [K, D]).map (fun g => (g.1, false, g.2.2))).all (fieldOk v) = false
        obtain ⟨f, hf, hf1⟩ := List.mem_map.mp hD
        apply all_eq_false_of_mem (x := (D, false, f.2.2))
        · apply List.mem_map.mpr
          refine ⟨f, List.mem_filter.mpr ⟨hf, by simp [hf1]⟩, by rw [hf1]⟩
        · unfold fieldOk
          show (match lookupVal D v with
            | some b => decide (b ∈ f.2.2)
            | none => false) = false
          rw [hlD]
      rw [hP1, hP2]
      simp
    unfold checkLit
    rw [hassign]
    rfl
  · intro v a b hlK hlD hall hkeys
    have hOmit : assignable v (Ty.obj (OmitT fs [D])) = true := all_filter_of_all hall
    have hP2 : assignable v (Ty.obj (RequiredT (PickT fs [K, D]))) = true := by
      show ((PickT fs [K, D]).map (fun g => (g.1, false, g.2.2))).all (fieldOk v) = true
      rw [List.all_eq_true]
      intro x hx
      obtain ⟨f, hfmem, rfl⟩ := List.mem_map.mp hx
      obtain ⟨hfin, hfsel⟩ := List.mem_filter.mp hfmem
      have hok : fieldOk v f = true := List.all_eq_true.mp hall f hfin
      have hfKD : f.1 = K ∨ f.1 = D := by simpa using hfsel
      rcases hfKD with h | h
      · exact fieldOk_required_of_some (a := a) (by rw [h]; exact hlK) hok
      · exact fieldOk_required_of_some (a := b) (by rw [h]; exact hlD) hok
    unfold checkLit
    rw [hepc v hkeys]
    unfold RequiredDependency
    show ((assignable v (Ty.obj (OmitT fs [D])) &&
      (assignable v (Ty.obj (PartialT (neverRecord [K, D]))) ||
       assignable v (Ty.obj (RequiredT (PickT fs [K, D]))))) && true) = true
    rw [hOmit, hP2]
    simp
  · intro v hlK hlD hall hkeys
    have hOmit : assignable v (Ty.obj (OmitT fs [D])) = true := all_filter_of_all hall
    have hP1 : assignable v (Ty.obj (PartialT (neverRecord [K, D]))) = true := by
      show ((neverRecord [K, D] : FieldsT α).map (fun g => (g.1, true, g.2.2))).all
        (fieldOk v) = true
      rw [List.all_eq_true]
      intro x hx
      obtain ⟨g, hgmem, rfl⟩ := List.mem_map.mp hx
      have hgKD : g = (K, false, ([] : List α)) ∨ g = (D, false, ([] : List α)) := by
        simpa [neverRecord] using hgmem
      rcases hgKD with rfl | rfl
      · unfold fieldOk
        show (match lookupVal K v with
          | some b => decide (b ∈ ([] : List α))
          | none => true) = true
        rw [hlK]
      · unfold fieldOk
        show (match lookupVal D v with
          | some b => decide (b ∈ ([] : List α))
          | none => true) = true
        rw [hlD]
    unfold checkLit
    rw [hepc v hkeys]
    unfold RequiredDependency
    show ((assignable v (Ty.obj (OmitT fs [D])) &&
      (assignable v (Ty.obj (PartialT (neverRecord [K, D]))) ||
       assignable v (Ty.obj (RequiredT (PickT fs [K, D]))))) && true) = true
    rw [hOmit, hP1]
    simp

/-- Witness for C5 at the documentation's FormField example with the
dependency minLength requires maxLength: minLength alone is rejected, both
together are accepted, neither is accepted. -/
theorem requiredDependency_spec_witness :
    (optAtF formFields (PropKeyA.str "minLength") = true) ∧
    (optAtF formFields (PropKeyA.str "maxLength") = true) ∧
    checkLit [(PropKeyA.str "minLength", 1)]
      (RequiredDependency formFields (PropKeyA.str "minLength")
        (PropKeyA.str "maxLength")) = false ∧
    checkLit [(PropKeyA.str "minLength", 1), (PropKeyA.str "maxLength", 2)]
      (RequiredDependency formFields (PropKeyA.str "minLength")
        (PropKeyA.str "maxLength")) = true ∧
    checkLit ([] : ValRec Nat)
      (RequiredDependency formFields (PropKeyA.str "minLength")
        (PropKeyA.str "maxLength")) = true := by
  have h := requiredDependency_spec formFields
    (PropKeyA.str "minLength") (PropKeyA.str "maxLength")
    (by decide) (by decide) (by decide) (by decide) (by decide)
  refine ⟨by decide, by decide, ?_, ?_, ?_⟩
  · exact h.1 _ 1 (by decide) (by decide)
  · exact h.2.1 _ 1 2 (by decide) (by decide) (by decide) (by decide)
  · exact h.2.2 _ (by decide) (by decide) (by decide) (by decide)

/-- Claim C6: ArrayItem applied to a tuple of three pairwise-distinct element
types yields exactly their union. -/
theorem arrayItem_tuple3 {α : Type} (A B C : List α)
    (_hAB : A ≠ B) (_hAC : A ≠ C) (_hBC : B ≠ C) :
    ArrayItem [A, B, C] = A ++ B ++ C ∧ EqSet (ArrayItem [A, B, C]) (A ++ B ++ C) := by
  have h : ArrayItem [A, B, C] = A ++ B ++ C := by
    unfold ArrayItem
    simp
  exact ⟨h, by rw [h]; exact fun b => Iff.rfl⟩

/-- Witness for C6 at a concrete tuple of three distinct singleton element
types. -/
theorem arrayItem_tuple3_witness :
    (([0] : List Nat) ≠ [1]) ∧ (([0] : List Nat) ≠ [2]) ∧ (([1] : List Nat) ≠ [2]) ∧
    (ArrayItem [([0] : List Nat), [1], [2]] = [0] ++ [1] ++ [2] ∧
     EqSet (ArrayItem [([0] : List Nat), [1], [2]]) ([0] ++ [1] ++ [2])) :=
  ⟨by decide, by decide, by decide,
   arrayItem_tuple3 [0] [1] [2] (by decide) (by decide) (by decide)⟩

/-- Claim C7: on a map whose key union is made of exactly two distinct
PropertyKey literals, MapKeyOf yields exactly that two-literal union and
MapValueOf yields exactly the value type. -/
theorem mapKeyValue_pair {α : Type} (k1 k2 : PropKeyA) (_h : k1 ≠ k2) (v : List α) :
    MapKeyOf ⟨[TKey.pk k1, TKey.pk k2], v⟩ = [TKey.pk k1, TKey.pk k2] ∧
    MapValueOf ⟨[TKey.pk k1, TKey.pk k2], v⟩ = v :=
  ⟨rfl, rfl⟩

/-- Witness for C7 at a concrete two-key map. -/
theorem mapKeyValue_pair_witness :
    (PropKeyA.str "width" ≠ PropKeyA.str "height") ∧
    (MapKeyOf ⟨[TKey.pk (PropKeyA.str "width"), TKey.pk (PropKeyA.str "height")], ([5] : List Nat)⟩
        = [TKey.pk (PropKeyA.str "width"), TKey.pk (PropKeyA.str "height")] ∧
     MapValueOf ⟨[TKey.pk (PropKeyA.str "width"), TKey.pk (PropKeyA.str "height")],
        ([5] : List Nat)⟩ = [5]) :=
  ⟨by decide,
   mapKeyValue_pair (PropKeyA.str "width") (PropKeyA.str "height") (by decide) [5]⟩

/-- Claim C8: the recursion of ToSnakeCase consumes exactly one leading
character per step and reaches the empty-string base case: with fuel equal to
the length of the input the fuel-indexed variant never runs out and computes
exactly ToSnakeCase, so the embedding is total. -/
theorem toSnakeCase_terminates (u : Bool) (t : List Char) :
    ToSnakeCaseFuel u t.length t = some (ToSnakeCase u t) := by
  induction t with
  | nil => rfl
  | cons c cs ih =>
    show (ToSnakeCaseFuel u cs.length cs).map _ = _
    rw [ih]
    rfl

/-- Claim C9: whenever a character equals its own uppercase form (even when it
is not an uppercase letter, such as a digit), ToSnakeCase inserts an
underscore before it exactly as for uppercase letters; in particular
Camel2SnakeCase of user1Id with the flag false is user_1_id. -/
theorem toSnakeCase_selfUpperChar (u : Bool) (p s : List Char) (c : Char)
    (hself : c = c.toUpper) (_hnotupper : ¬(65 ≤ c.toNat ∧ c.toNat ≤ 90)) :
    ToSnakeCase u (p ++ c :: s) = ToSnakeCase u p ++ '_' :: Fmt u c :: ToSnakeCase u s ∧
    Camel2SnakeCase false "user1Id".data = "user_1_id".data := by
  constructor
  · rw [toSnakeCase_append, ToSnakeCase, if_pos hself]
  · decide

/-- Witness for C9 at the digit 1 inside user1Id. -/
theorem toSnakeCase_selfUpperChar_witness :
    ('1' = '1'.toUpper) ∧ ¬(65 ≤ '1'.toNat ∧ '1'.toNat ≤ 90) ∧
    (ToSnakeCase false ("user".data ++ '1' :: "Id".data)
        = ToSnakeCase false "user".data ++ '_' :: Fmt false '1' :: ToSnakeCase false "Id".data ∧
     Camel2SnakeCase false "user1Id".data = "user_1_id".data) :=
  ⟨by decide, by decide,
   toSnakeCase_selfUpperChar false "user".data "Id".data '1' (by decide) (by decide)⟩

/-- Claim C10: MapToObject keeps exactly the PropertyKey components of the key
union, silently dropping components not assignable to PropertyKey, and maps
every retained key to the entire value type. -/
theorem mapToObject_keyFiltering {α : Type} (m : MapTy α) :
    (∀ p : PropKeyA, p ∈ keyofT (MapToObject m) ↔ TKey.pk p ∈ m.keyU) ∧
    (∀ f ∈ MapToObject m, f.2 = m.valU) := by
  obtain ⟨ks, V⟩ := m
  constructor
  · intro p
    induction ks with
    | nil => simp [MapToObject, keyofT]
    | cons k ks ih =>
      cases k with
      | pk q =>
        show p ∈ keyofT ((q, V) :: MapToObject ⟨ks, V⟩) ↔ TKey.pk p ∈ TKey.pk q :: ks
        show p ∈ q :: keyofT (MapToObject (⟨ks, V⟩ : MapTy α)) ↔ _
        rw [List.mem_cons, List.mem_cons, ih]
        simp
      | nonProp n =>
        show p ∈ keyofT (MapToObject (⟨ks, V⟩ : MapTy α)) ↔ TKey.pk p ∈ TKey.nonProp n :: ks
        rw [List.mem_cons, ih]
        simp
  · induction ks with
    | nil =>
      intro f hf
      simp [MapToObject] at hf
    | cons k ks ih =>
      intro f hf
      cases k with
      | pk q =>
        have hf2 : f = (q, V) ∨ f ∈ MapToObject (⟨ks, V⟩ : MapTy α) := List.mem_cons.mp hf
        rcases hf2 with rfl | h
        · rfl
        · exact ih f h
      | nonProp n =>
        exact ih f hf

/-- Witness for C10 at a map mixing a PropertyKey atom with a non-PropertyKey
atom: the non-PropertyKey atom disappears and the kept key receives the whole
value union. -/
theorem mapToObject_keyFiltering_witness :
    MapToObject mixedMap = [(PropKeyA.str "a", [1, 2])] ∧
    ((PropKeyA.str "a") ∈ keyofT (MapToObject mixedMap)
      ↔ TKey.pk (PropKeyA.str "a") ∈ mixedMap.keyU) ∧
    ((PropKeyA.str "a", ([1, 2] : List Nat)).2 = mixedMap.valU) :=
  ⟨by decide, (mapToObject_keyFiltering mixedMap).1 (PropKeyA.str "a"),
   (mapToObject_keyFiltering mixedMap).2 (PropKeyA.str "a", [1, 2]) (by decide)⟩

end TsApiPro
